import Mathlib

set_option maxRecDepth 4000

/-!
# Verification of the BerryMed pulse-oximeter framing and decoding pipeline

Shallow embedding of `berrymed_pulse_oximeter.py`: the stream framer
(`chunks`), the marker predicate (`starting_bit_lookup_condition`), the
per-byte bit-layout schema (`PARSING_SCHEMA`, via the `construct` library
semantics: most-significant-bit-first within each byte), and the per-packet
decoding performed inside `BluetoothPulseSensorReader.start_reading`.

Bytes are modelled as `Nat` (the Python source draws them from a
`bytearray`, so they lie in `0..255`; hypotheses state this where a claim
needs it).
-/

namespace BerryMed

/-! ## Bit-level schema (the `construct` BitStruct semantics)

`construct`'s `BitStruct` turns one byte into a most-significant-bit-first
bit stream and reads the declared fields off it in order.  We model a byte
layout as the list of its field widths and a generic field reader over the
bit stream; parsing fails exactly when a field asks for more bits than
remain. -/

/-- The eight bits of a byte, most significant first (as `construct`
presents them to a `BitStruct`). -/
def byteBits (b : Nat) : List Bool :=
  [b.testBit 7, b.testBit 6, b.testBit 5, b.testBit 4,
   b.testBit 3, b.testBit 2, b.testBit 1, b.testBit 0]

/-- Value of a most-significant-bit-first bit list. -/
def bitsToNat (bits : List Bool) : Nat :=
  bits.foldl (fun acc bit => 2 * acc + (if bit then 1 else 0)) 0

/-- Read consecutive bit fields of the given widths off a bit stream;
fails when a field would overrun the stream (a `ConstructError`). -/
def parseFields : List Nat → List Bool → Option (List Nat)
  | [], _ => some []
  | w :: ws, bits =>
    if bits.length < w then none
    else
      match parseFields ws (bits.drop w) with
      | none => none
      | some vs => some (bitsToNat (bits.take w) :: vs)

/-- Field widths of the five per-position byte layouts of
`PARSING_SCHEMA` (position 0: sync_bit, pulse_beep, probe_unplugged,
has_signal flags then 4-bit signal_strength; position 1: sync_bit then
7-bit pleth; position 2: sync_bit, pr_last_bit, pulse_research, no_finger
then 4-bit bargraph; position 3: sync_bit then 7 bits of the pulse rate;
position 4: sync_bit then 7-bit spo2). -/
def PARSING_SCHEMA : Nat → List Nat
  | 0 => [1, 1, 1, 1, 4]
  | 1 => [1, 7]
  | 2 => [1, 1, 1, 1, 4]
  | 3 => [1, 7]
  | 4 => [1, 7]
  | _ => []

/-- Named fields of `PARSING_SCHEMA[0]` applied to a byte. -/
structure Byte0Fields where
  sync_bit : Bool
  pulse_beep : Bool
  probe_unplugged : Bool
  has_signal : Bool
  signal_strength : Nat
deriving DecidableEq, Repr

/-- Named fields of `PARSING_SCHEMA[2]` applied to a byte. -/
structure Byte2Fields where
  sync_bit : Bool
  pr_last_bit : Nat
  pulse_research : Bool
  no_finger : Bool
  bargraph : Nat
deriving DecidableEq, Repr

/-- Named fields of `PARSING_SCHEMA[3]` applied to a byte (`pr_bits` is
the 7-bit part of the pulse rate). -/
structure Byte3Fields where
  sync_bit : Bool
  pr_bits : Nat
deriving DecidableEq, Repr

/-- `PARSING_SCHEMA[0].parse` on one byte. -/
def parseByte0 (b : Nat) : Option Byte0Fields :=
  match parseFields (PARSING_SCHEMA 0) (byteBits b) with
  | some [s, pb, pu, hs, ss] => some ⟨s = 1, pb = 1, pu = 1, hs = 1, ss⟩
  | _ => none

/-- `PARSING_SCHEMA[2].parse` on one byte. -/
def parseByte2 (b : Nat) : Option Byte2Fields :=
  match parseFields (PARSING_SCHEMA 2) (byteBits b) with
  | some [s, pr, pres, nf, bg] => some ⟨s = 1, pr, pres = 1, nf = 1, bg⟩
  | _ => none

/-- `PARSING_SCHEMA[3].parse` on one byte. -/
def parseByte3 (b : Nat) : Option Byte3Fields :=
  match parseFields (PARSING_SCHEMA 3) (byteBits b) with
  | some [s, pr] => some ⟨s = 1, pr⟩
  | _ => none

/-- `starting_bit_lookup_condition(x)`: parse the byte with
`PARSING_SCHEMA[0]` and return its `sync_bit`; a `ConstructError` is
caught and yields `False`. -/
def starting_bit_lookup_condition (x : Nat) : Bool :=
  match parseByte0 x with
  | some r => r.sync_bit
  | none => false

/-! ## The framer (`chunks`)

The Python generator keeps two tee'd iterators: `it2` scans ahead looking
for the next boundary (the inner `while` loop), `it1` lags behind and is
sliced to emit each chunk.  `scanStep` embeds the inner loop: it returns
the final `split_index`, the `sequence_ended` flag, the final
`sequence_started` flag and the unconsumed remainder of `it2`.
`chunksGo` embeds the outer `while True` loop, with a fuel argument that
`chunks` instantiates to `length + 1`, enough for every input (each
iteration but the last emits at least one byte). -/

/-- Inner scanning loop of `chunks`: advances `it2` until a boundary is
found (`condition` holds with `split_index ≠ 0`) or the iterator is
exhausted. -/
def scanStep (cond : Nat → Bool) : List Nat → Nat → Bool → Nat × Bool × Bool × List Nat
  | [], si, started => (si, false, started, [])
  | x :: xs, si, started =>
    if cond x then
      if si = 0 then scanStep cond xs (si + 1) true
      else (si, true, started, xs)
    else scanStep cond xs (si + 1) started

/-- Outer loop of `chunks`: one iteration runs the inner scan, applies the
`if split_index and sequence_ended` update, slices `split_index` bytes off
`it1` and yields them unless empty. -/
def chunksGo (cond : Nat → Bool) : Nat → List Nat → List Nat → Bool → List (List Nat)
  | 0, _, _, _ => []
  | fuel + 1, it1, it2, started =>
    let r := scanStep cond it2 (if started then 1 else 0) started
    let si := r.1
    let ended := r.2.1
    let started1 := r.2.2.1
    let rest2 := r.2.2.2
    let started2 := if si ≠ 0 ∧ ended = true then true else started1
    let chunk := it1.take si
    if chunk.isEmpty then []
    else chunk :: chunksGo cond fuel (it1.drop si) rest2 started2

/-- `chunks(iterable, condition)`: split a byte sequence into groups at
the bytes satisfying `condition`, per the generator in the source. -/
def chunks (l : List Nat) (cond : Nat → Bool) : List (List Nat) :=
  chunksGo cond (l.length + 1) l l false

/-! ## The decoder (per-packet body of `start_reading`) -/

/-- The record built per well-formed packet (`HeartRateData`).  The source
stamps a wall-clock string; we model the stamp as an opaque `Nat` supplied
by the caller. -/
structure HeartRateData where
  signal_strength : Nat
  has_signal : Bool
  pleth : Nat
  bargraph : Nat
  no_finger : Bool
  pulse_rate : Nat
  spo2 : Nat
  timestamp : Nat
deriving DecidableEq, Repr

/-- Outcome of handling one packet: dropped by the length filter
(`continue` without inspection), dropped by the `except` branch around the
bit-layout parses, or decoded into a sample handed to the callback. -/
inductive DecodeResult where
  | framingMismatch
  | fieldDecodeError
  | sample (s : HeartRateData)
deriving DecidableEq, Repr

/-- Per-packet body of `start_reading`: length filter, the two
`PARSING_SCHEMA` parses (positions 0 and 2), and the field assembly
(`spo2`, `pleth` and the position-3 part of `pulse_rate` are taken from
the raw bytes). -/
def decodePacket (packet : List Nat) (now : Nat) : DecodeResult :=
  if packet.length ≠ 5 then .framingMismatch
  else
    match parseByte0 (packet.getD 0 0), parseByte2 (packet.getD 2 0) with
    | some byte1Data, some byte3Data =>
      .sample
        { signal_strength := byte1Data.signal_strength
          has_signal := byte1Data.has_signal
          bargraph := byte3Data.bargraph
          no_finger := byte3Data.no_finger
          spo2 := packet.getD 4 0
          pleth := packet.getD 1 0
          pulse_rate := packet.getD 3 0 ||| ((packet.getD 2 0 &&& 0x40) <<< 1)
          timestamp := now }
    | _, _ => .fieldDecodeError

/-- The sample a packet contributes to the callback, if any. -/
def sampleOf : DecodeResult → Option HeartRateData
  | .sample s => some s
  | _ => none

/-- The `for packet in chunks(...)` loop over a list of already-framed
packets: each packet yields at most one sample, errors just `continue`. -/
def processPackets (packets : List (List Nat)) (now : Nat) : List HeartRateData :=
  packets.filterMap (fun p => sampleOf (decodePacket p now))

/-- One full delivery: frame the raw buffer with the sync-bit marker, then
decode each group. -/
def processDelivery (raw : List Nat) (now : Nat) : List HeartRateData :=
  processPackets (chunks raw starting_bit_lookup_condition) now

theorem scanStep_no_marker (cond : Nat → Bool) :
    ∀ (l : List Nat) (si : Nat) (st : Bool), si ≠ 0 →
      (∀ x ∈ l, cond x = false) →
      scanStep cond l si st = (si + l.length, false, st, []) := by
  intro l
  induction l with
  | nil => intro si st _ _; simp [scanStep]
  | cons x xs ih =>
    intro si st hsi hall
    have hx : cond x = false := hall x (by simp)
    simp only [scanStep, hx, Bool.false_eq_true, if_false]
    rw [ih (si + 1) st (by omega) (fun y hy => hall y (by simp [hy]))]
    simp; omega

theorem scanStep_found (cond : Nat → Bool) :
    ∀ (l : List Nat) (si : Nat) (st : Bool) (m : Nat) (r : List Nat), si ≠ 0 →
      l.dropWhile (fun x => !cond x) = m :: r →
      scanStep cond l si st = (si + (l.takeWhile (fun x => !cond x)).length, true, st, r) := by
  intro l
  induction l with
  | nil => intro si st m r _ hdw; simp [List.dropWhile] at hdw
  | cons x xs ih =>
    intro si st m r hsi hdw
    by_cases hx : cond x = true
    · simp only [List.dropWhile, hx, Bool.not_true, List.takeWhile] at hdw ⊢
      simp only [scanStep, hx, if_true, hsi, if_false]
      simp at hdw
      simp [hdw.2]
    · have hx' : cond x = false := by revert hx; cases h : cond x <;> simp
      simp only [List.dropWhile, List.takeWhile, hx', Bool.not_false] at hdw ⊢
      simp only [scanStep, hx', Bool.false_eq_true, if_false]
      rw [ih (si + 1) st m r (by omega) hdw]
      simp; omega

theorem dropWhile_head_cond (cond : Nat → Bool) :
    ∀ (l : List Nat) (m : Nat) (r : List Nat),
      l.dropWhile (fun x => !cond x) = m :: r → cond m = true := by
  intro l
  induction l with
  | nil => intro m r h; simp [List.dropWhile] at h
  | cons x xs ih =>
    intro m r h
    by_cases hx : cond x = true
    · simp only [List.dropWhile, hx, Bool.not_true] at h
      simp at h
      rw [← h.1]; exact hx
    · have hx' : cond x = false := by revert hx; cases hc : cond x <;> simp
      simp only [List.dropWhile, hx', Bool.not_false] at h
      exact ih m r h

theorem dropWhile_eq_drop_len (cond : Nat → Bool) :
    ∀ (l : List Nat),
      l.dropWhile (fun x => !cond x) = l.drop ((l.takeWhile (fun x => !cond x)).length) := by
  intro l
  induction l with
  | nil => simp
  | cons x xs ih =>
    by_cases hx : cond x = true
    · simp [List.dropWhile, List.takeWhile, hx]
    · have hx' : cond x = false := by revert hx; cases hc : cond x <;> simp
      simp [List.dropWhile, List.takeWhile, hx', ih]

theorem take_takeWhile_len (cond : Nat → Bool) (l : List Nat) :
    l.take ((l.takeWhile (fun x => !cond x)).length) = l.takeWhile (fun x => !cond x) :=
  (List.prefix_iff_eq_take.mp (List.takeWhile_prefix _)).symm

theorem chunksGo_steady_flatten (cond : Nat → Bool) :
    ∀ (fuel : Nat) (it1 : List Nat), it1.length < fuel →
      (chunksGo cond fuel it1 (it1.drop 1) true).flatten = it1 := by
  intro fuel
  induction fuel with
  | zero => intro it1 h; omega
  | succ n ih =>
    intro it1 h
    match it1 with
    | [] => simp [chunksGo, scanStep]
    | h1 :: t1 =>
      have hn : 0 < n := by simp at h; omega
      cases hdw : t1.dropWhile (fun x => !cond x) with
      | nil =>
        have hall : ∀ x ∈ t1, cond x = false := by
          intro x hx
          have hx' := List.dropWhile_eq_nil_iff.mp hdw x hx
          simpa using hx'
        have hscan := scanStep_no_marker cond t1 1 true (by omega) hall
        have ihnil := ih [] (by simpa using hn)
        simp only [List.drop_nil] at ihnil
        have hlen1 : (h1 :: t1).length ≤ 1 + t1.length := by simp [Nat.add_comm]
        simp only [chunksGo, List.drop_succ_cons, List.drop_zero, if_true, hscan]
        rw [List.take_of_length_le hlen1, List.drop_of_length_le hlen1]
        simp [ihnil]
      | cons m r =>
        have hscan := scanStep_found cond t1 1 true m r (by omega) hdw
        rw [Nat.add_comm 1] at hscan
        have htake : t1.take ((t1.takeWhile (fun x => !cond x)).length)
            = t1.takeWhile (fun x => !cond x) := take_takeWhile_len cond t1
        have hdrop : t1.drop ((t1.takeWhile (fun x => !cond x)).length) = m :: r := by
          rw [← dropWhile_eq_drop_len]; exact hdw
        have hsplit : t1.length = (t1.takeWhile (fun x => !cond x)).length + (r.length + 1) := by
          conv_lhs => rw [← List.takeWhile_append_dropWhile (p := fun x => !cond x) (l := t1)]
          rw [hdw]; simp
        have hlen : (m :: r).length < n := by
          simp only [List.length_cons] at h ⊢; omega
        have ihr := ih (m :: r) hlen
        simp only [List.drop_succ_cons, List.drop_zero] at ihr
        simp only [chunksGo, List.drop_succ_cons, List.drop_zero, if_true, hscan]
        simp only [List.take_succ_cons, htake, List.isEmpty_cons, List.drop_succ_cons, hdrop,
          ite_self, Bool.false_eq_true, if_false, List.flatten_cons, ihr]
        rw [List.cons_append, ← hdw, List.takeWhile_append_dropWhile]

theorem chunksGo_succ (cond : Nat → Bool) (n : Nat) (it1 it2 : List Nat) (st : Bool) :
    chunksGo cond (n + 1) it1 it2 st =
      (let r := scanStep cond it2 (if st then 1 else 0) st
       let si := r.1
       let ended := r.2.1
       let started1 := r.2.2.1
       let rest2 := r.2.2.2
       let started2 := if si ≠ 0 ∧ ended = true then true else started1
       let chunk := it1.take si
       if chunk.isEmpty then []
       else chunk :: chunksGo cond n (it1.drop si) rest2 started2) := rfl

theorem chunks_start_marker (cond : Nat → Bool) (h1 : Nat) (t1 : List Nat)
    (hc : cond h1 = true) :
    chunks (h1 :: t1) cond
      = chunksGo cond ((h1 :: t1).length + 1) (h1 :: t1) ((h1 :: t1).drop 1) true := by
  show chunksGo cond ((h1 :: t1).length + 1) (h1 :: t1) (h1 :: t1) false
      = chunksGo cond ((h1 :: t1).length + 1) (h1 :: t1) ((h1 :: t1).drop 1) true
  rw [chunksGo_succ, chunksGo_succ]
  simp only [scanStep, hc, if_true, List.drop_succ_cons, List.drop_zero, Nat.zero_add,
    if_false, Bool.false_eq_true]

/-- C1: for every finite byte sequence and every marker predicate,
concatenating, in order, all groups emitted by `chunks` reproduces the
original input exactly (no byte lost, duplicated or reordered). -/
theorem chunks_flatten_eq (l : List Nat) (cond : Nat → Bool) :
    (chunks l cond).flatten = l := by
  match l with
  | [] => rfl
  | h1 :: t1 =>
    by_cases hc : cond h1 = true
    · rw [chunks_start_marker cond h1 t1 hc]
      exact chunksGo_steady_flatten cond _ _ (by simp)
    · have hc' : cond h1 = false := by revert hc; cases hx : cond h1 <;> simp
      cases hdw : t1.dropWhile (fun x => !cond x) with
      | nil =>
        have hall : ∀ x ∈ t1, cond x = false := by
          intro x hx
          have hx' := List.dropWhile_eq_nil_iff.mp hdw x hx
          simpa using hx'
        have hscan := scanStep_no_marker cond t1 1 false (by omega) hall
        rw [Nat.add_comm 1] at hscan
        have hstep : scanStep cond (h1 :: t1) (if (false : Bool) then 1 else 0) false
            = (t1.length + 1, false, false, []) := by
          simp only [Bool.false_eq_true, if_false, scanStep, hc', Nat.zero_add]
          exact hscan
        have hlen1 : (h1 :: t1).length ≤ t1.length + 1 := by simp
        show (chunksGo cond ((h1 :: t1).length + 1) (h1 :: t1) (h1 :: t1) false).flatten
            = h1 :: t1
        rw [chunksGo_succ]
        simp only [hstep]
        rw [List.take_of_length_le hlen1, List.drop_of_length_le hlen1]
        simp only [List.isEmpty_cons, Bool.false_eq_true, if_false, List.flatten_cons]
        have hrest : chunksGo cond (t1.length + 1) [] [] false = [] := by
          rw [chunksGo_succ]
          simp [scanStep]
        simp [hrest]
      | cons m r =>
        have hscan := scanStep_found cond t1 1 false m r (by omega) hdw
        rw [Nat.add_comm 1] at hscan
        have hstep : scanStep cond (h1 :: t1) (if (false : Bool) then 1 else 0) false
            = ((t1.takeWhile (fun x => !cond x)).length + 1, true, false, r) := by
          simp only [Bool.false_eq_true, if_false, scanStep, hc', Nat.zero_add]
          exact hscan
        have htake : t1.take ((t1.takeWhile (fun x => !cond x)).length)
            = t1.takeWhile (fun x => !cond x) := take_takeWhile_len cond t1
        have hdrop : t1.drop ((t1.takeWhile (fun x => !cond x)).length) = m :: r := by
          rw [← dropWhile_eq_drop_len]; exact hdw
        have hsplit : t1.length = (t1.takeWhile (fun x => !cond x)).length + (r.length + 1) := by
          conv_lhs => rw [← List.takeWhile_append_dropWhile (p := fun x => !cond x) (l := t1)]
          rw [hdw]; simp
        have hsteady := chunksGo_steady_flatten cond (h1 :: t1).length (m :: r)
          (by simp only [List.length_cons]; omega)
        simp only [List.drop_succ_cons, List.drop_zero] at hsteady
        show (chunksGo cond ((h1 :: t1).length + 1) (h1 :: t1) (h1 :: t1) false).flatten
            = h1 :: t1
        rw [chunksGo_succ]
        simp only [hstep]
        simp only [List.take_succ_cons, htake, List.isEmpty_cons, List.drop_succ_cons,
          hdrop, ne_eq, Nat.succ_ne_zero, not_false_iff, true_and, if_true,
          Bool.false_eq_true, if_false, List.flatten_cons, hsteady]
        rw [List.cons_append, ← hdw, List.takeWhile_append_dropWhile]

theorem chunksGo_nil (cond : Nat → Bool) (n : Nat) (st : Bool) :
    chunksGo cond n [] [] st = [] := by
  cases n with
  | zero => rfl
  | succ m => rw [chunksGo_succ]; simp [scanStep]

theorem chunks_no_marker (cond : Nat → Bool) (h1 : Nat) (t1 : List Nat)
    (hc' : cond h1 = false) (hdw : t1.dropWhile (fun x => !cond x) = []) :
    chunks (h1 :: t1) cond = [h1 :: t1] := by
  have hall : ∀ x ∈ t1, cond x = false := by
    intro x hx
    have hx' := List.dropWhile_eq_nil_iff.mp hdw x hx
    simpa using hx'
  have hscan := scanStep_no_marker cond t1 1 false (by omega) hall
  rw [Nat.add_comm 1] at hscan
  have hstep : scanStep cond (h1 :: t1) (if (false : Bool) then 1 else 0) false
      = (t1.length + 1, false, false, []) := by
    simp only [Bool.false_eq_true, if_false, scanStep, hc', Nat.zero_add]
    exact hscan
  have hlen1 : (h1 :: t1).length ≤ t1.length + 1 := by simp
  show chunksGo cond ((h1 :: t1).length + 1) (h1 :: t1) (h1 :: t1) false = [h1 :: t1]
  rw [chunksGo_succ]
  simp only [hstep]
  rw [List.take_of_length_le hlen1, List.drop_of_length_le hlen1]
  simp [chunksGo_nil]

theorem chunks_later_marker (cond : Nat → Bool) (h1 : Nat) (t1 : List Nat) (m : Nat)
    (r : List Nat) (hc' : cond h1 = false)
    (hdw : t1.dropWhile (fun x => !cond x) = m :: r) :
    chunks (h1 :: t1) cond
      = (h1 :: t1.takeWhile (fun x => !cond x))
          :: chunksGo cond (h1 :: t1).length (m :: r) r true := by
  have hscan := scanStep_found cond t1 1 false m r (by omega) hdw
  rw [Nat.add_comm 1] at hscan
  have hstep : scanStep cond (h1 :: t1) (if (false : Bool) then 1 else 0) false
      = ((t1.takeWhile (fun x => !cond x)).length + 1, true, false, r) := by
    simp only [Bool.false_eq_true, if_false, scanStep, hc', Nat.zero_add]
    exact hscan
  have htake : t1.take ((t1.takeWhile (fun x => !cond x)).length)
      = t1.takeWhile (fun x => !cond x) := take_takeWhile_len cond t1
  have hdrop : t1.drop ((t1.takeWhile (fun x => !cond x)).length) = m :: r := by
    rw [← dropWhile_eq_drop_len]; exact hdw
  show chunksGo cond ((h1 :: t1).length + 1) (h1 :: t1) (h1 :: t1) false = _
  rw [chunksGo_succ]
  simp only [hstep]
  simp only [List.take_succ_cons, htake, List.isEmpty_cons, List.drop_succ_cons, hdrop,
    ne_eq, Nat.succ_ne_zero, not_false_iff, true_and, if_true, Bool.false_eq_true, if_false]

theorem chunksGo_steady_groups (cond : Nat → Bool) :
    ∀ (fuel : Nat) (it1 : List Nat), it1.length < fuel →
      (∀ x ∈ it1.take 1, cond x = true) →
      ∀ g ∈ chunksGo cond fuel it1 (it1.drop 1) true,
        ∃ b t, g = b :: t ∧ cond b = true ∧ t.countP (fun x => cond x) = 0 := by
  intro fuel
  induction fuel with
  | zero => intro it1 h; omega
  | succ n ih =>
    intro it1 h hhead
    match it1 with
    | [] => simp [chunksGo, scanStep]
    | h1 :: t1 =>
      have hn : 0 < n := by simp at h; omega
      have hc : cond h1 = true := hhead h1 (by simp)
      cases hdw : t1.dropWhile (fun x => !cond x) with
      | nil =>
        have hall : ∀ x ∈ t1, cond x = false := by
          intro x hx
          have hx' := List.dropWhile_eq_nil_iff.mp hdw x hx
          simpa using hx'
        have hscan := scanStep_no_marker cond t1 1 true (by omega) hall
        have hlen1 : (h1 :: t1).length ≤ 1 + t1.length := by simp [Nat.add_comm]
        intro g hg
        rw [chunksGo_succ] at hg
        simp only [List.drop_succ_cons, List.drop_zero, if_true, hscan] at hg
        rw [List.take_of_length_le hlen1, List.drop_of_length_le hlen1] at hg
        simp only [List.isEmpty_cons, Bool.false_eq_true, if_false, chunksGo_nil,
          List.mem_cons, List.not_mem_nil, or_false] at hg
        refine ⟨h1, t1, hg, hc, ?_⟩
        exact List.countP_eq_zero.mpr (fun a ha => by simp [hall a ha])
      | cons m r =>
        have hscan := scanStep_found cond t1 1 true m r (by omega) hdw
        rw [Nat.add_comm 1] at hscan
        have htake : t1.take ((t1.takeWhile (fun x => !cond x)).length)
            = t1.takeWhile (fun x => !cond x) := take_takeWhile_len cond t1
        have hdrop : t1.drop ((t1.takeWhile (fun x => !cond x)).length) = m :: r := by
          rw [← dropWhile_eq_drop_len]; exact hdw
        have hsplit : t1.length = (t1.takeWhile (fun x => !cond x)).length + (r.length + 1) := by
          conv_lhs => rw [← List.takeWhile_append_dropWhile (p := fun x => !cond x) (l := t1)]
          rw [hdw]; simp
        have hm := dropWhile_head_cond cond t1 m r hdw
        have hlen : (m :: r).length < n := by
          simp only [List.length_cons] at h ⊢; omega
        have ihr := ih (m :: r) hlen (by intro x hx; simp at hx; rw [hx]; exact hm)
        simp only [List.drop_succ_cons, List.drop_zero] at ihr
        intro g hg
        rw [chunksGo_succ] at hg
        simp only [List.drop_succ_cons, List.drop_zero, if_true, hscan] at hg
        simp only [List.take_succ_cons, htake, List.isEmpty_cons, List.drop_succ_cons, hdrop,
          ite_self, Bool.false_eq_true, if_false, List.mem_cons] at hg
        cases hg with
        | inl hg =>
          refine ⟨h1, t1.takeWhile (fun x => !cond x), hg, hc, ?_⟩
          refine List.countP_eq_zero.mpr (fun a ha => ?_)
          have := List.mem_takeWhile_imp ha
          simp at this
          simp [this]
        | inr hg => exact ihr g hg

/-- C6: for every input and marker predicate, every group emitted by
`chunks` except possibly the first and the last contains exactly one byte
satisfying the predicate, and that byte sits at offset 0 of the group. -/
theorem chunks_middle_group_marker (l : List Nat) (cond : Nat → Bool) (i : Nat)
    (hi : 0 < i) (hilen : i + 1 < (chunks l cond).length) :
    ((chunks l cond).getD i []).countP (fun x => cond x) = 1 ∧
      ∃ b t, (chunks l cond).getD i [] = b :: t ∧ cond b = true := by
  match l with
  | [] => simp [chunks, chunksGo] at hilen
  | h1 :: t1 =>
    by_cases hc : cond h1 = true
    · have heq := chunks_start_marker cond h1 t1 hc
      have hmem : (chunks (h1 :: t1) cond).getD i [] ∈ chunks (h1 :: t1) cond := by
        rw [List.getD_eq_getElem _ _ (by omega)]
        exact List.getElem_mem _
      rw [heq] at hmem ⊢
      have hprop := chunksGo_steady_groups cond ((h1 :: t1).length + 1) (h1 :: t1)
        (by simp) (by intro x hx; simp at hx; rw [hx]; exact hc) _ hmem
      obtain ⟨b, t, hbt, hb, ht⟩ := hprop
      refine ⟨?_, b, t, hbt, hb⟩
      rw [hbt, List.countP_cons_of_pos _ _ (by simpa using hb), ht]
    · have hc' : cond h1 = false := by revert hc; cases hx : cond h1 <;> simp
      cases hdw : t1.dropWhile (fun x => !cond x) with
      | nil =>
        rw [chunks_no_marker cond h1 t1 hc' hdw] at hilen
        simp only [List.length_singleton] at hilen
        omega
      | cons m r =>
        have heq := chunks_later_marker cond h1 t1 m r hc' hdw
        have hsplit : t1.length = (t1.takeWhile (fun x => !cond x)).length + (r.length + 1) := by
          conv_lhs => rw [← List.takeWhile_append_dropWhile (p := fun x => !cond x) (l := t1)]
          rw [hdw]; simp
        obtain ⟨j, rfl⟩ : ∃ j, i = j + 1 := ⟨i - 1, by omega⟩
        rw [heq] at hilen ⊢
        simp only [List.length_cons] at hilen ⊢
        have hj : j < (chunksGo cond (t1.length + 1) (m :: r) r true).length := by omega
        simp only [List.getD_cons_succ]
        have hmem : (chunksGo cond (t1.length + 1) (m :: r) r true).getD j []
            ∈ chunksGo cond (t1.length + 1) (m :: r) r true := by
          rw [List.getD_eq_getElem _ _ hj]
          exact List.getElem_mem _
        have hm := dropWhile_head_cond cond t1 m r hdw
        have hprop := chunksGo_steady_groups cond (t1.length + 1) (m :: r)
          (by simp only [List.length_cons]; omega)
          (by intro x hx; simp at hx; rw [hx]; exact hm)
        simp only [List.drop_succ_cons, List.drop_zero] at hprop
        obtain ⟨b, t, hbt, hb, ht⟩ := hprop _ hmem
        refine ⟨?_, b, t, hbt, hb⟩
        rw [hbt, List.countP_cons_of_pos _ _ (by simpa using hb), ht]

theorem bitsToNat_lt (bits : List Bool) : bitsToNat bits < 2 ^ bits.length := by
  have hgen : ∀ (l : List Bool) (acc : Nat),
      l.foldl (fun a bit => 2 * a + (if bit then 1 else 0)) acc < (acc + 1) * 2 ^ l.length := by
    intro l
    induction l with
    | nil => intro acc; simp
    | cons x xs ih =>
      intro acc
      have h1 := ih (2 * acc + (if x then 1 else 0))
      have h2 : (2 * acc + (if x then 1 else 0) + 1) * 2 ^ xs.length
          ≤ (acc + 1) * 2 ^ (x :: xs).length := by
        simp only [List.length_cons, pow_succ]
        cases x <;> simp <;> ring_nf <;> omega
      calc List.foldl (fun a bit => 2 * a + (if bit then 1 else 0)) (2 * acc + (if x then 1 else 0)) xs
          < (2 * acc + (if x then 1 else 0) + 1) * 2 ^ xs.length := h1
        _ ≤ (acc + 1) * 2 ^ (x :: xs).length := h2
  have := hgen bits 0
  simpa [bitsToNat] using this

theorem parseByte0_eval (b : Nat) :
    parseByte0 b = some
      ⟨b.testBit 7, b.testBit 6, b.testBit 5, b.testBit 4,
        bitsToNat [b.testBit 3, b.testBit 2, b.testBit 1, b.testBit 0]⟩ := by
  simp [parseByte0, parseFields, PARSING_SCHEMA, byteBits, bitsToNat]

theorem parseByte2_eval (b : Nat) :
    parseByte2 b = some
      ⟨b.testBit 7, bitsToNat [b.testBit 6], b.testBit 5, b.testBit 4,
        bitsToNat [b.testBit 3, b.testBit 2, b.testBit 1, b.testBit 0]⟩ := by
  simp [parseByte2, parseFields, PARSING_SCHEMA, byteBits, bitsToNat]

theorem parseByte3_eval (b : Nat) :
    parseByte3 b = some
      ⟨b.testBit 7,
        bitsToNat [b.testBit 6, b.testBit 5, b.testBit 4,
          b.testBit 3, b.testBit 2, b.testBit 1, b.testBit 0]⟩ := by
  simp [parseByte3, parseFields, PARSING_SCHEMA, byteBits, bitsToNat]

theorem decodePacket_eval (b0 b1 b2 b3 b4 now : Nat) :
    decodePacket [b0, b1, b2, b3, b4] now = .sample
      { signal_strength := bitsToNat [b0.testBit 3, b0.testBit 2, b0.testBit 1, b0.testBit 0]
        has_signal := b0.testBit 4
        bargraph := bitsToNat [b2.testBit 3, b2.testBit 2, b2.testBit 1, b2.testBit 0]
        no_finger := b2.testBit 4
        spo2 := b4
        pleth := b1
        pulse_rate := b3 ||| ((b2 &&& 0x40) <<< 1)
        timestamp := now } := by
  simp [decodePacket, parseByte0_eval, parseByte2_eval, List.getD]

theorem list_eq_five (l : List Nat) (h : l.length = 5) :
    ∃ b0 b1 b2 b3 b4, l = [b0, b1, b2, b3, b4] := by
  match l with
  | [b0, b1, b2, b3, b4] => exact ⟨b0, b1, b2, b3, b4, rfl⟩
  | [] | [_] | [_, _] | [_, _, _] | [_, _, _, _] => simp at h
  | _ :: _ :: _ :: _ :: _ :: _ :: _ => simp at h

theorem parseFields_isSome (ws : List Nat) :
    ∀ bits : List Bool, ws.sum ≤ bits.length → (parseFields ws bits).isSome = true := by
  induction ws with
  | nil => intro bits h; simp [parseFields]
  | cons w ws ih =>
    intro bits h
    simp only [List.sum_cons] at h
    have hw : ¬ bits.length < w := by omega
    have hrec := ih (bits.drop w) (by simp only [List.length_drop]; omega)
    simp only [parseFields, hw, if_false]
    cases hpf : parseFields ws (bits.drop w) with
    | none => rw [hpf] at hrec; simp at hrec
    | some vs => simp

/-- C3 (amended): a marker byte at offset 0 of the scan only opens a
group, but a marker immediately after the opening marker (offset 1) does
close the group, so `chunks` emits the opening marker as a group of
length 1 and continues at the adjacent marker. -/
theorem chunks_adjacent_marker_theorem (cond : Nat → Bool) (x y : Nat) (l : List Nat)
    (hx : cond x = true) (hy : cond y = true) :
    chunks (x :: y :: l) cond = [x] :: chunks (y :: l) cond := by
  show chunksGo cond ((x :: y :: l).length + 1) (x :: y :: l) (x :: y :: l) false
      = [x] :: chunksGo cond ((y :: l).length + 1) (y :: l) (y :: l) false
  rw [chunksGo_succ]
  have hstep : scanStep cond (x :: y :: l) (if (false : Bool) then 1 else 0) false
      = (1, true, true, l) := by
    simp [scanStep, hx, hy]
  simp only [hstep]
  simp only [List.take_succ_cons, List.take_zero, List.isEmpty_cons, Bool.false_eq_true,
    if_false, List.drop_succ_cons, List.drop_zero, ite_self, List.length_cons]
  congr 1
  rw [chunksGo_succ, chunksGo_succ]
  have hstep2 : scanStep cond (y :: l) (if (false : Bool) then 1 else 0) false
      = scanStep cond l 1 true := by
    simp [scanStep, hy]
  have hstep3 : scanStep cond l (if (true : Bool) then 1 else 0) true
      = scanStep cond l 1 true := by
    simp
  rw [hstep2, hstep3]

theorem bits7_val_eq : ∀ b < 128,
    bitsToNat [b.testBit 6, b.testBit 5, b.testBit 4, b.testBit 3,
      b.testBit 2, b.testBit 1, b.testBit 0] = b := by decide

theorem and64_shift : ∀ b < 256, (b &&& 64) <<< 1 = bitsToNat [b.testBit 6] <<< 7 := by decide

/-- C2 (amended): in every decoded sample the schema-parsed fields have
their sync and flag bits stripped (`signal_strength` and `bargraph` are
4-bit values), but `pleth` and `spo2` are the raw bytes at positions 1 and
4 — their sync bits are not discarded, so they range over 0-255. -/
theorem decode_field_ranges (packet : List Nat) (now : Nat) (s : HeartRateData)
    (h : decodePacket packet now = .sample s) :
    s.signal_strength < 16 ∧ s.bargraph < 16 ∧
      s.pleth = packet.getD 1 0 ∧ s.spo2 = packet.getD 4 0 := by
  have hlen : packet.length = 5 := by
    by_contra hne
    simp [decodePacket, hne] at h
  obtain ⟨b0, b1, b2, b3, b4, rfl⟩ := list_eq_five packet hlen
  rw [decodePacket_eval] at h
  simp only [DecodeResult.sample.injEq] at h
  subst h
  refine ⟨?_, ?_, rfl, rfl⟩
  · have hb := bitsToNat_lt [b0.testBit 3, b0.testBit 2, b0.testBit 1, b0.testBit 0]
    simpa using hb
  · have hb := bitsToNat_lt [b2.testBit 3, b2.testBit 2, b2.testBit 1, b2.testBit 0]
    simpa using hb

/-- C4 (amended): the decoded pulse rate is raw byte 3 OR-ed with the
position-2 carry bit shifted to bit 7; this equals the claimed
`(carry_bit <<< 7) ||| partial_7_bit_value` exactly when byte 3's own sync
bit is clear (byte 3 < 128). -/
theorem pulse_rate_reconstruction (packet : List Nat) (now : Nat) (s : HeartRateData)
    (h : decodePacket packet now = .sample s) :
    s.pulse_rate = packet.getD 3 0 ||| ((packet.getD 2 0 &&& 64) <<< 1) ∧
      (packet.getD 2 0 < 256 → packet.getD 3 0 < 128 →
        ∀ f2 f3, parseByte2 (packet.getD 2 0) = some f2 →
          parseByte3 (packet.getD 3 0) = some f3 →
          s.pulse_rate = (f2.pr_last_bit <<< 7) ||| f3.pr_bits) := by
  have hlen : packet.length = 5 := by
    by_contra hne
    simp [decodePacket, hne] at h
  obtain ⟨b0, b1, b2, b3, b4, rfl⟩ := list_eq_five packet hlen
  rw [decodePacket_eval] at h
  simp only [DecodeResult.sample.injEq] at h
  subst h
  constructor
  · rfl
  · intro hb2 hb3 f2 f3 hf2 hf3
    rw [parseByte2_eval] at hf2
    rw [parseByte3_eval] at hf3
    simp only [Option.some.injEq] at hf2 hf3
    subst hf2
    subst hf3
    show b3 ||| ((b2 &&& 64) <<< 1)
        = (bitsToNat [b2.testBit 6]) <<< 7 ||| bitsToNat [b3.testBit 6, b3.testBit 5,
            b3.testBit 4, b3.testBit 3, b3.testBit 2, b3.testBit 1, b3.testBit 0]
    rw [bits7_val_eq b3 hb3, ← and64_shift b2 hb2]
    exact Nat.lor_comm _ _

/-- C5: every group whose length is not exactly 5 is rejected by the
length filter regardless of its bytes, and contributes no sample to the
callback. -/
theorem length_filter_rejects (packet : List Nat) (now : Nat) (h : packet.length ≠ 5) :
    decodePacket packet now = .framingMismatch ∧ processPackets [packet] now = [] := by
  have hd : decodePacket packet now = .framingMismatch := by simp [decodePacket, h]
  exact ⟨hd, by simp [processPackets, sampleOf, hd]⟩

/-- C7: the decoder is total — every group yields either a sample or one
of the two rejection outcomes — and a rejected group is local: it
contributes nothing and leaves the processing of all other groups in the
same delivery unchanged. -/
theorem decoder_no_throw_frame_local (now : Nat) (p : List Nat) :
    ((∃ s, decodePacket p now = .sample s) ∨ decodePacket p now = .framingMismatch
        ∨ decodePacket p now = .fieldDecodeError) ∧
      ∀ gs1 gs2, sampleOf (decodePacket p now) = none →
        processPackets (gs1 ++ p :: gs2) now
          = processPackets gs1 now ++ processPackets gs2 now := by
  constructor
  · by_cases hlen : p.length = 5
    · obtain ⟨b0, b1, b2, b3, b4, rfl⟩ := list_eq_five p hlen
      exact Or.inl ⟨_, decodePacket_eval b0 b1 b2 b3 b4 now⟩
    · exact Or.inr (Or.inl (by simp [decodePacket, hlen]))
  · intro gs1 gs2 hnone
    simp [processPackets, hnone]

/-- C9: each of the five per-position schemas consumes exactly 8 bits,
every schema parse succeeds on every byte, and decoding a length-5 group
always produces a sample (the field-decode-error branch is unreachable). -/
theorem schema_layouts_total (b : Nat) (hb : b < 256) :
    (∀ i, i < 5 → (PARSING_SCHEMA i).sum = 8) ∧
      (∀ i, i < 5 → (parseFields (PARSING_SCHEMA i) (byteBits b)).isSome = true) ∧
      (∀ (packet : List Nat) (now : Nat), packet.length = 5 →
        ∃ s, decodePacket packet now = .sample s) := by
  refine ⟨by decide, ?_, ?_⟩
  · intro i hi
    apply parseFields_isSome
    have h8 : (byteBits b).length = 8 := by simp [byteBits]
    rw [h8]
    interval_cases i <;> decide
  · intro packet now hlen
    obtain ⟨b0, b1, b2, b3, b4, rfl⟩ := list_eq_five packet hlen
    exact ⟨_, decodePacket_eval b0 b1 b2 b3 b4 now⟩

/-- C10: for every byte 0-255, `starting_bit_lookup_condition` parses
successfully (never raises) and returns true exactly when the most
significant bit is set (byte >= 128). -/
theorem marker_iff_msb (b : Nat) (hb : b < 256) :
    (parseByte0 b).isSome = true ∧ starting_bit_lookup_condition b = decide (128 ≤ b) := by
  constructor
  · rw [parseByte0_eval]; rfl
  · have htb : ∀ c, c < 256 → (Nat.testBit c 7 = decide (128 ≤ c)) := by decide
    simp only [starting_bit_lookup_condition, parseByte0_eval]
    exact htb b hb

/-- C8: framing [2,1,3,2,1,3,2,1,3] with the predicate (value == 3)
emits exactly [2,1], [3,2,1], [3,2,1], [3], in that order. -/
theorem chunks_example_scenario :
    chunks [2, 1, 3, 2, 1, 3, 2, 1, 3] (fun x => x == 3)
      = [[2, 1], [3, 2, 1], [3, 2, 1], [3]] := by decide

/-- C3 counterexample: on input [3,3] with both bytes markers, `chunks`
emits the length-1 group [3] and then splits at the adjacent marker,
contradicting the claim that such a split never happens. -/
theorem chunks_length_one_group_emitted :
    chunks [3, 3] (fun x => x == 3) = [[3], [3]] ∧
      ((chunks [3, 3] (fun x => x == 3)).getD 0 []).length = 1 := by decide

/-- Witness for the amended C3 at the concrete input [3,3]. -/
theorem chunks_adjacent_marker_witness :
    chunks [3, 3] (fun a => a == 3) = [3] :: chunks [3] (fun a => a == 3) :=
  chunks_adjacent_marker_theorem (fun a => a == 3) 3 3 [] (by decide) (by decide)

/-- Witness for C6 at the concrete spec scenario input, group index 1. -/
theorem chunks_middle_group_marker_witness :
    ((chunks [2, 1, 3, 2, 1, 3, 2, 1, 3] (fun x => x == 3)).getD 1 []).countP
        (fun x => x == 3) = 1 ∧
      ∃ b t, (chunks [2, 1, 3, 2, 1, 3, 2, 1, 3] (fun x => x == 3)).getD 1 [] = b :: t ∧
        (b == 3) = true :=
  chunks_middle_group_marker [2, 1, 3, 2, 1, 3, 2, 1, 3] (fun x => x == 3) 1
    (by decide) (by decide)

/-- C2 counterexample: the accepted 5-byte frame [128,255,0,0,255]
decodes with pleth = 255 and spo2 = 255, outside 0-127 — the sync bits of
positions 1 and 4 are not discarded. -/
theorem pleth_spo2_sync_bit_kept :
    ∃ s, decodePacket [128, 255, 0, 0, 255] 0 = .sample s ∧ 127 < s.pleth ∧ 127 < s.spo2 := by
  refine ⟨_, decodePacket_eval 128 255 0 0 255 0, ?_, ?_⟩ <;> decide

/-- Witness for the amended C2 on the accepted frame [128,1,2,3,4]. -/
theorem decode_field_ranges_witness :
    (⟨0, false, 1, 2, false, 3, 4, 0⟩ : HeartRateData).signal_strength < 16 ∧
      (⟨0, false, 1, 2, false, 3, 4, 0⟩ : HeartRateData).bargraph < 16 ∧
      (⟨0, false, 1, 2, false, 3, 4, 0⟩ : HeartRateData).pleth = [128, 1, 2, 3, 4].getD 1 0 ∧
      (⟨0, false, 1, 2, false, 3, 4, 0⟩ : HeartRateData).spo2 = [128, 1, 2, 3, 4].getD 4 0 :=
  decode_field_ranges [128, 1, 2, 3, 4] 0 _ (by decide)

/-- C4 counterexample: the accepted frame [0,0,0,133,0] decodes to pulse
rate 133, whereas the claimed formula (carry 0, 7-bit part 5) gives 5 —
byte 3's sync bit leaks into the decoded pulse rate. -/
theorem pulse_rate_formula_fails :
    ∃ s, decodePacket [0, 0, 0, 133, 0] 0 = .sample s ∧ s.pulse_rate = 133 ∧
      ∃ f2 f3, parseByte2 0 = some f2 ∧ parseByte3 133 = some f3 ∧
        ¬ s.pulse_rate = (f2.pr_last_bit <<< 7) ||| f3.pr_bits := by
  refine ⟨_, decodePacket_eval 0 0 0 133 0 0, by decide,
    ⟨false, 0, false, false, 0⟩, ⟨true, 5⟩, by decide, by decide, by decide⟩

/-- Witness for the amended C4: frame [0,0,64,1,0] has carry bit 1 and
7-bit part 1 and decodes to pulse rate 129. -/
theorem pulse_rate_reconstruction_witness :
    (⟨0, false, 0, 0, false, 129, 0, 0⟩ : HeartRateData).pulse_rate
      = (⟨false, 1, false, false, 0⟩ : Byte2Fields).pr_last_bit <<< 7
          ||| (⟨false, 1⟩ : Byte3Fields).pr_bits :=
  (pulse_rate_reconstruction [0, 0, 64, 1, 0] 0 _ (by decide)).2 (by decide) (by decide)
    ⟨false, 1, false, false, 0⟩ ⟨false, 1⟩ (by decide) (by decide)

/-- Witness for C5 on the 4-byte group [1,2,3,4]. -/
theorem length_filter_rejects_witness :
    decodePacket [1, 2, 3, 4] 0 = .framingMismatch ∧ processPackets [[1, 2, 3, 4]] 0 = [] :=
  length_filter_rejects [1, 2, 3, 4] 0 (by decide)

/-- Witness for C7: the malformed middle group [1,2,3,4] is dropped and
the two well-formed neighbours are decoded unaffected. -/
theorem decoder_no_throw_frame_local_witness :
    processPackets [[128, 0, 0, 0, 0], [1, 2, 3, 4], [128, 1, 2, 3, 4]] 0
      = processPackets [[128, 0, 0, 0, 0]] 0 ++ processPackets [[128, 1, 2, 3, 4]] 0 :=
  (decoder_no_throw_frame_local 0 [1, 2, 3, 4]).2 [[128, 0, 0, 0, 0]] [[128, 1, 2, 3, 4]]
    (by decide)

/-- Witness for C9 at byte 200, schema position 1, frame [200,1,2,3,4]. -/
theorem schema_layouts_total_witness :
    (PARSING_SCHEMA 1).sum = 8 ∧
      (parseFields (PARSING_SCHEMA 1) (byteBits 200)).isSome = true ∧
      ∃ s, decodePacket [200, 1, 2, 3, 4] 0 = .sample s :=
  ⟨(schema_layouts_total 200 (by decide)).1 1 (by decide),
    (schema_layouts_total 200 (by decide)).2.1 1 (by decide),
    (schema_layouts_total 200 (by decide)).2.2 [200, 1, 2, 3, 4] 0 (by decide)⟩

/-- Witness for C10 at byte 200. -/
theorem marker_iff_msb_witness :
    (parseByte0 200).isSome = true ∧
      starting_bit_lookup_condition 200 = decide (128 ≤ 200) :=
  marker_iff_msb 200 (by decide)

end BerryMed
